import Mathlib

/-!
Verification of the git-gc command (cmd/git-gc/main.go) against its
natural-language specification.

The program is a Bubble Tea (charmbracelet/bubbletea v1) TUI.  The embedding
below follows the source:

* `Model` mirrors the Go `model` struct (the rendering-only fields `width`,
  `height`, `spinner`, `progress`, `styles` are omitted; `View` is abstracted
  to which branch renders, since glyph formatting is out of the spec's scope).
* Go `int` is modelled as `Int` (values stay far from 64-bit overflow).
* `Model.Init` mirrors `func (m model) Init() tea.Cmd`.  In bubbletea v1,
  `Init` returns only a command; the runtime keeps the model it was
  constructed with, so the `m.nextIndex++ / m.inFlight++` writes inside the
  value-receiver `Init` are discarded.  `Init` therefore only produces
  commands here, and the stored model is unchanged — that is exactly what the
  Go runtime does.  `Init` returns `none` when Go would raise a runtime error
  (`make([]tea.Cmd, toSpawn)` with a negative length).
* `Model.Update` mirrors `func (m model) Update(...)` case by case.
* `runGitGC` mirrors the callback passed to `tea.ExecProcess`: on a non-nil
  error (non-zero exit status, or the process failing to start) the callback
  returns the command function `tea.Quit` itself as the message — a
  `func() tea.Msg` value, not a `tea.QuitMsg` value — modelled as the
  distinguished message `Msg.teaQuitFn`, which no case of `Update` (nor the
  bubbletea runtime) matches.
* `Sys` wraps a model with the multiset of outstanding (dispatched, not yet
  completed) runs and the aggregate dispatch log; `Sys.Step` delivers one
  completion event for an outstanding run, as the single-writer event loop
  does, and stops once a quit command has been emitted.
* The filesystem is a finite tree `FSNode`; `walkCollect` mirrors the
  `filepath.Walk` callback of `findDirectories` (callback on a directory
  before its children; a read failure aborts the whole walk).  `filepath.Walk`
  visits entries in lexical order; the visit order only affects the order of
  the pre-deduplication list, which the final sort normalises, so children are
  visited in tree order here.  The hash-set accumulator's nondeterministic
  `Values()` order is modelled by an arbitrary reordering function
  `valuesOrder`, constrained to produce permutations.
-/

namespace GitGC

deriving instance DecidableEq for Except

/-- A Bubble Tea command, restricted to the commands main.go produces.
`setPercent` records the completed count and the total whose quotient the
progress bar receives; `printfCheck` is the per-directory checkmark line. -/
inductive Cmd where
  | spinnerTick : Cmd
  | quit : Cmd
  | runGitGCCmd (dir : String) : Cmd
  | setPercent (completedCount total : Int) : Cmd
  | printfCheck (dir : String) : Cmd
  deriving DecidableEq

/-- A Bubble Tea message, restricted to the messages main.go handles or
produces.  `teaQuitFn` is the command function `tea.Quit` returned as a
message by runGitGC's callback on failure: being a `func() tea.Msg` value and
not a `tea.QuitMsg` value, it matches no case of `Update`. -/
inductive Msg where
  | dirGitGCCompleted (dir : String) : Msg
  | quitMsg : Msg
  | teaQuitFn : Msg
  | keyMsg (key : String) : Msg
  deriving DecidableEq

/-- The Go `model` struct (scheduler fields; rendering fields omitted).
`index` is the Go field name for the count of completed runs. -/
structure Model where
  directories : List String
  done : Bool
  concurrency : Int
  inFlight : Int
  nextIndex : Int
  index : Int
  deriving DecidableEq

/-- The model literal `newModel` builds after a successful enumeration:
all counters at their Go zero values. -/
def mkModel (dirs : List String) (concurrency : Int) : Model :=
  { directories := dirs, done := false, concurrency := concurrency,
    inFlight := 0, nextIndex := 0, index := 0 }

/-- Go `func (m model) Init() tea.Cmd`.  Returns the commands handed to the
runtime; the stored model is NOT updated (value receiver).  `none` models the
runtime error of `make([]tea.Cmd, toSpawn)` when `toSpawn < 0`. -/
def Model.Init (m : Model) : Option (List Cmd) :=
  if m.directories.isEmpty then
    some [Cmd.spinnerTick, Cmd.quit]
  else
    let toSpawn : Int := min m.concurrency (m.directories.length : Int)
    if toSpawn < 0 then none
    else
      some (Cmd.spinnerTick ::
        ((m.directories.drop m.nextIndex.toNat).take toSpawn.toNat).map Cmd.runGitGCCmd)

/-- Go `func (m model) Update(msg tea.Msg) (tea.Model, tea.Cmd)`, case by
case.  On `dirGitGCCompleted`: increment `index`, decrement `inFlight`;
if `nextIndex < len(directories)` build a `runGitGC` command for
`directories[nextIndex]` and bump `nextIndex`/`inFlight`; if afterwards
`index >= len(directories)`, set `done` and return progress/checkmark/quit
(dropping the freshly built dispatch command, exactly as the Go code does),
otherwise return progress/checkmark/dispatch. -/
def Model.Update (m : Model) : Msg → Model × List Cmd
  | Msg.dirGitGCCompleted pkg =>
    let total : Int := m.directories.length
    let m1 : Model := { m with index := m.index + 1, inFlight := m.inFlight - 1 }
    let progressCmd : Cmd := Cmd.setPercent m1.index total
    let checkMarkCmd : Cmd := Cmd.printfCheck pkg
    let step : Model × List Cmd :=
      if m1.nextIndex < total then
        ({ m1 with nextIndex := m1.nextIndex + 1, inFlight := m1.inFlight + 1 },
          [Cmd.runGitGCCmd (m1.directories.getD m1.nextIndex.toNat "")])
      else (m1, [])
    if total ≤ step.1.index then
      ({ step.1 with done := true }, [progressCmd, checkMarkCmd, Cmd.quit])
    else
      (step.1, [progressCmd, checkMarkCmd] ++ step.2)
  | Msg.quitMsg => (m, [Cmd.quit])
  | Msg.keyMsg k =>
    if k == "ctrl+c" || k == "esc" || k == "q" then (m, [Cmd.quit]) else (m, [])
  | Msg.teaQuitFn => (m, [])

/-- Which branch of Go `View` renders: the terminal "Done! Ran garbage
collection on %d repos." message, or the running "Cleaning repos... %d/%d
complete" line. -/
inductive ViewOut where
  | doneMsg (total : Int) : ViewOut
  | running (index total : Int) : ViewOut
  deriving DecidableEq

/-- Go `func (m model) View() string`, abstracted to which report it shows. -/
def Model.View (m : Model) : ViewOut :=
  if m.done then ViewOut.doneMsg m.directories.length
  else ViewOut.running m.index m.directories.length

/-- Go `runGitGC`'s `tea.ExecProcess` callback: given whether the external
`git -C dir gc` finished with a non-nil error (non-zero exit, or failure to
start), produce the message delivered to the program.  On failure the Go code
returns `tea.Quit` — the command function itself — as the message. -/
def runGitGC (dir : String) (exitErr : Bool) : Msg :=
  if exitErr then Msg.teaQuitFn else Msg.dirGitGCCompleted dir

/-- The directories dispatched by a command list (its `runGitGC` commands,
in order). -/
def dispatchesOf (cmds : List Cmd) : List String :=
  cmds.filterMap fun c =>
    match c with
    | Cmd.runGitGCCmd d => some d
    | _ => none

/-- Whether a command list contains `tea.Quit`. -/
def hasQuitCmd (cmds : List Cmd) : Bool :=
  cmds.any fun c => c == Cmd.quit

/-- A running program: the stored model, the dispatched-but-not-completed
runs, the aggregate dispatch log, and whether a quit command has been
emitted (after which the event loop stops). -/
structure Sys where
  model : Model
  outstanding : List String
  dispatched : List String
  quitted : Bool
  deriving DecidableEq

/-- Program start-up: `Init` runs on the freshly constructed model; its
`runGitGC` commands are dispatched; the stored model is unchanged.  `none`
when `Init` hits the negative `make` length. -/
def Sys.init? (m : Model) : Option Sys :=
  m.Init.map fun cmds =>
    { model := m, outstanding := dispatchesOf cmds, dispatched := dispatchesOf cmds,
      quitted := hasQuitCmd cmds }

/-- Deliver one completion event for `dir`: run `Update`, retire one
outstanding occurrence of `dir`, and record/dispatch the commands `Update`
returned. -/
def Sys.applyCompletion (s : Sys) (dir : String) : Sys :=
  let r := s.model.Update (Msg.dirGitGCCompleted dir)
  { model := r.1,
    outstanding := s.outstanding.erase dir ++ dispatchesOf r.2,
    dispatched := s.dispatched ++ dispatchesOf r.2,
    quitted := s.quitted || hasQuitCmd r.2 }

/-- One transition of the event loop: a completion event may arrive for any
outstanding run, in any order, as long as the program has not quit. -/
inductive Sys.Step : Sys → Sys → Prop where
  | complete (s : Sys) (dir : String) (hmem : dir ∈ s.outstanding)
      (hq : s.quitted = false) : Sys.Step s (s.applyCompletion dir)

/-- Reachability along completion events. -/
def Sys.Reach (s s' : Sys) : Prop :=
  Relation.ReflTransGen Sys.Step s s'

/-- A node of the scanned filesystem: a plain file, or a directory with a
readability flag (false models a permission failure on reading its entries)
and its children. -/
inductive FSNode where
  | file (name : String) : FSNode
  | dir (name : String) (readable : Bool) (children : List FSNode) : FSNode

/-- The entry name of a node. -/
def FSNode.name : FSNode → String
  | .file n => n
  | .dir n _ _ => n

/-- Go `info.IsDir()`. -/
def FSNode.isDir : FSNode → Bool
  | .file _ => false
  | .dir _ _ _ => true

/-- Go `strings.HasPrefix(name, ".")`: the entry name begins with a dot. -/
def isHiddenName (s : String) : Bool :=
  s.data.head? == some '.'

/-- Go `os.Stat(filepath.Join(path, ".git")); err == nil`: the directory
directly contains an entry named `.git` — of any kind, file or directory;
the Go code performs no `IsDir` check on it. -/
def hasGitEntry (children : List FSNode) : Bool :=
  children.any fun c => c.name == ".git"

/-- Byte-wise lexicographic comparison of character lists.  On UTF-8 encoded
strings, Go's byte-wise string order (used by `slices.Sort`) coincides with
this code-point lexicographic order. -/
def charListLe : List Char → List Char → Bool
  | [], _ => true
  | _ :: _, [] => false
  | a :: as, b :: bs =>
    if a.toNat = b.toNat then charListLe as bs
    else decide (a.toNat < b.toNat)

/-- Go's string order `a <= b`, as used by `slices.Sort` on the path list. -/
def StrLe (a b : String) : Prop :=
  charListLe a.data b.data = true

instance : DecidableRel StrLe :=
  fun a b => inferInstanceAs (Decidable (charListLe a.data b.data = true))

/-- Two characters with the same scalar value are equal. -/
theorem char_toNat_inj (a b : Char) (h : a.toNat = b.toNat) : a = b :=
  Char.eq_of_val_eq (UInt32.ext_iff.mpr h)

theorem charListLe_total : ∀ as bs : List Char,
    charListLe as bs = true ∨ charListLe bs as = true := by
  intro as
  induction as with
  | nil => intro bs; left; rfl
  | cons a as ih =>
    intro bs
    cases bs with
    | nil => right; rfl
    | cons b bs =>
      by_cases hab : a.toNat = b.toNat
      · have hba : b.toNat = a.toNat := hab.symm
        rcases ih bs with h | h
        · left; simp [charListLe, hab, h]
        · right; simp [charListLe, hba, h]
      · have hba : ¬ b.toNat = a.toNat := fun h => hab h.symm
        rcases Nat.lt_or_ge a.toNat b.toNat with h | h
        · left; simp [charListLe, hab, h]
        · right
          simp only [charListLe, if_neg hba, decide_eq_true_eq]
          omega

theorem charListLe_trans : ∀ as bs cs : List Char,
    charListLe as bs = true → charListLe bs cs = true → charListLe as cs = true := by
  intro as
  induction as with
  | nil => intro bs cs _ _; rfl
  | cons a as ih =>
    intro bs cs h1 h2
    cases bs with
    | nil => simp [charListLe] at h1
    | cons b bs =>
      cases cs with
      | nil => simp [charListLe] at h2
      | cons c cs =>
        simp only [charListLe] at h1 h2 ⊢
        by_cases hab : a.toNat = b.toNat
        · by_cases hbc : b.toNat = c.toNat
          · rw [if_pos hab] at h1
            rw [if_pos hbc] at h2
            rw [if_pos (hab.trans hbc)]
            exact ih bs cs h1 h2
          · rw [if_pos hab] at h1
            rw [if_neg hbc] at h2
            have h2n : b.toNat < c.toNat := by simpa using h2
            have hac : ¬ a.toNat = c.toNat := by omega
            rw [if_neg hac]
            simp only [decide_eq_true_eq]
            omega
        · have h1n : a.toNat < b.toNat := by
            rw [if_neg hab] at h1
            simpa using h1
          by_cases hbc : b.toNat = c.toNat
          · have hac : ¬ a.toNat = c.toNat := by omega
            rw [if_neg hac]
            simp only [decide_eq_true_eq]
            omega
          · have h2n : b.toNat < c.toNat := by
              rw [if_neg hbc] at h2
              simpa using h2
            have hac : ¬ a.toNat = c.toNat := by omega
            rw [if_neg hac]
            simp only [decide_eq_true_eq]
            omega

theorem charListLe_antisymm : ∀ as bs : List Char,
    charListLe as bs = true → charListLe bs as = true → as = bs := by
  intro as
  induction as with
  | nil =>
    intro bs _ h2
    cases bs with
    | nil => rfl
    | cons b bs => simp [charListLe] at h2
  | cons a as ih =>
    intro bs h1 h2
    cases bs with
    | nil => simp [charListLe] at h1
    | cons b bs =>
      simp only [charListLe] at h1 h2
      by_cases hab : a.toNat = b.toNat
      · obtain rfl : a = b := char_toNat_inj a b hab
        rw [if_pos rfl] at h1
        rw [if_pos rfl] at h2
        exact congrArg (a :: ·) (ih bs h1 h2)
      · have hba : ¬ b.toNat = a.toNat := fun h => hab h.symm
        rw [if_neg hab] at h1
        rw [if_neg hba] at h2
        have h1n : a.toNat < b.toNat := by simpa using h1
        have h2n : b.toNat < a.toNat := by simpa using h2
        omega

instance : IsTotal String StrLe :=
  ⟨fun a b => charListLe_total a.data b.data⟩

instance : IsTrans String StrLe :=
  ⟨fun a b c => charListLe_trans a.data b.data c.data⟩

instance : IsRefl String StrLe :=
  ⟨fun a => by rcases charListLe_total a.data a.data with h | h <;> exact h⟩

instance : IsAntisymm String StrLe := by
  refine ⟨fun a b h1 h2 => ?_⟩
  obtain ⟨da⟩ := a
  obtain ⟨db⟩ := b
  exact congrArg String.mk (charListLe_antisymm da db h1 h2)

mutual

/-- Go `filepath.Walk` running the callback of `findDirectories`: the
callback fires on the directory itself first (collecting `path` when its name
has no leading dot and it has a `.git` entry — hidden directories are NOT
pruned, the walk still descends into them), then the children are walked; a
directory that cannot be read aborts the whole walk with an error, which the
callback propagates (fail-fast). -/
def walkCollect (path : String) : FSNode → Except String (List String)
  | FSNode.file _ => Except.ok []
  | FSNode.dir name readable children =>
    let here := if !isHiddenName name && hasGitEntry children then [path] else []
    if readable then
      match walkChildren path children with
      | Except.ok rest => Except.ok (here ++ rest)
      | Except.error e => Except.error e
    else Except.error (path ++ ": permission denied")

/-- Walk a directory's children in order, concatenating their collected
paths; the first error aborts. -/
def walkChildren (path : String) : List FSNode → Except String (List String)
  | [] => Except.ok []
  | c :: cs =>
    match walkCollect (path ++ "/" ++ c.name) c with
    | Except.ok l =>
      match walkChildren path cs with
      | Except.ok ls => Except.ok (l ++ ls)
      | Except.error e => Except.error e
    | Except.error e => Except.error e

end

/-- Go `findDirectories`: stat the root (`none` = the root path does not
exist), reject a non-directory root, walk the tree collecting qualifying
directories into a hash set, then sort the set's values.  `valuesOrder`
models the nondeterministic iteration order of `hashset.Values()`; callers
constrain it to a permutation. -/
def findDirectories (root : Option FSNode) (rootPath : String)
    (valuesOrder : List String → List String) : Except String (List String) :=
  match root with
  | none => Except.error ("stat " ++ rootPath ++ ": no such file or directory")
  | some f =>
    if f.isDir then
      match walkCollect rootPath f with
      | Except.error e => Except.error e
      | Except.ok paths =>
        Except.ok (List.insertionSort StrLe (valuesOrder paths.dedup))
    else Except.error ("root dir '" ++ rootPath ++ "' is not a directory")

/-- Go `newModel`: enumerate, then build the model; any enumeration error is
returned unchanged.  The concurrency argument is stored without validation. -/
def newModel (root : Option FSNode) (rootPath : String)
    (valuesOrder : List String → List String) (concurrency : Int) :
    Except String Model :=
  match findDirectories root rootPath valuesOrder with
  | Except.error e => Except.error e
  | Except.ok dirs => Except.ok (mkModel dirs concurrency)

/-- The outcome of `main` up to the point the TUI program takes over:
`fatal e` is the `newModel` error path (print and `os.Exit(1)`); `run s` is
the program started on the constructed model, `s = none` marking an `Init`
that hit the negative `make` length. -/
inductive MainRes where
  | fatal (msg : String) : MainRes
  | run (s : Option Sys) : MainRes

/-- The exit status `main` has determined so far: `some 1` on the fatal
enumeration path; `none` when the TUI takes over and the status is decided
later. -/
def MainRes.exitCode : MainRes → Option Int
  | .fatal _ => some 1
  | .run _ => none

/-- The work items dispatched by start-up. -/
def MainRes.dispatched : MainRes → List String
  | .fatal _ => []
  | .run none => []
  | .run (some s) => s.dispatched

/-- Go `main` up to handing the model to `tea.NewProgram(m).Run()`. -/
def mainRun (root : Option FSNode) (rootPath : String)
    (valuesOrder : List String → List String) (concurrency : Int) : MainRes :=
  match newModel root rootPath valuesOrder concurrency with
  | Except.error e => MainRes.fatal e
  | Except.ok m => MainRes.run (Sys.init? m)

/-- `ReposAt basePath node p`: within the subtree `node` mounted at
`basePath`, the directory at path `p` qualifies for the enumeration — its
name has no leading dot and it directly contains an entry named `.git` of
any kind. -/
inductive ReposAt : String → FSNode → String → Prop where
  | here (path name : String) (readable : Bool) (children : List FSNode)
      (hname : isHiddenName name = false) (hgit : hasGitEntry children = true) :
      ReposAt path (FSNode.dir name readable children) path
  | inside (path name : String) (readable : Bool) (children : List FSNode)
      (c : FSNode) (p : String) (hc : c ∈ children)
      (hp : ReposAt (path ++ "/" ++ c.name) c p) :
      ReposAt path (FSNode.dir name readable children) p

/-! ### Scheduler invariants

Because bubbletea's v1 runtime discards the model mutations made inside the
value-receiver `Init`, the stored model starts every run with
`nextIndex = inFlight = index = 0` regardless of how many processes the
initial command batch spawned.  `Update` then moves `index` and `nextIndex`
in lockstep, so on every stored state between events `nextIndex = index` and
`inFlight = 0`. -/

/-- The inductive invariant of the stored model along the event loop. -/
def SysInv (dirs : List String) (conc : Int) (s : Sys) : Prop :=
  s.model.directories = dirs ∧
  s.model.concurrency = conc ∧
  s.model.nextIndex = s.model.index ∧
  s.model.inFlight = 0 ∧
  0 ≤ s.model.index ∧
  s.model.index ≤ (dirs.length : Int) ∧
  (s.model.done = true ↔ s.model.index = (dirs.length : Int) ∧ 0 < dirs.length) ∧
  s.quitted = (s.model.done || dirs.isEmpty)

theorem hasQuitCmd_spawn (l : List String) :
    hasQuitCmd (Cmd.spinnerTick :: l.map Cmd.runGitGCCmd) = false := by
  simp [hasQuitCmd, List.any_map, Function.comp]

theorem dispatchesOf_map (ls : List String) :
    dispatchesOf (ls.map Cmd.runGitGCCmd) = ls := by
  induction ls with
  | nil => rfl
  | cons d ds ih => simpa [dispatchesOf, List.filterMap_cons] using ih

theorem dispatchesOf_spawn (l : List String) :
    dispatchesOf (Cmd.spinnerTick :: l.map Cmd.runGitGCCmd) = l := by
  simpa [dispatchesOf, List.filterMap_cons] using dispatchesOf_map l

/-- Start-up on an empty directory list: the quit command is emitted at once
and nothing is dispatched. -/
theorem init?_empty (conc : Int) :
    Sys.init? (mkModel [] conc) =
      some { model := mkModel [] conc, outstanding := [], dispatched := [],
             quitted := true } := rfl

/-- Start-up on a non-empty list with a non-negative spawn count: the first
`min concurrency total` directories are dispatched and the stored model keeps
its zeroed counters. -/
theorem init?_nonempty (dirs : List String) (conc : Int) (hne : dirs ≠ [])
    (hc : 0 ≤ min conc (dirs.length : Int)) :
    Sys.init? (mkModel dirs conc) =
      some { model := mkModel dirs conc,
             outstanding := dirs.take (min conc (dirs.length : Int)).toNat,
             dispatched := dirs.take (min conc (dirs.length : Int)).toNat,
             quitted := false } := by
  unfold Sys.init? Model.Init
  have he : (mkModel dirs conc).directories.isEmpty = false := by
    simp [mkModel, List.isEmpty_iff, hne]
  rw [he]
  simp only [Bool.false_eq_true, if_false, mkModel]
  rw [if_neg (not_lt.mpr hc)]
  simp [Int.toNat_zero, List.drop_zero, ← List.map_take, dispatchesOf_spawn,
    hasQuitCmd_spawn]

/-- Start-up on a non-empty list with a negative concurrency limit: Go's
`make([]tea.Cmd, toSpawn)` raises a runtime error. -/
theorem init?_neg (dirs : List String) (conc : Int) (hne : dirs ≠ [])
    (hc : min conc (dirs.length : Int) < 0) :
    Sys.init? (mkModel dirs conc) = none := by
  unfold Sys.init? Model.Init
  have he : (mkModel dirs conc).directories.isEmpty = false := by
    simp [mkModel, List.isEmpty_iff, hne]
  rw [he]
  simp only [Bool.false_eq_true, if_false, mkModel]
  rw [if_pos hc]
  rfl

theorem dispatchesOf_final (a b : Int) (p : String) :
    dispatchesOf [Cmd.setPercent a b, Cmd.printfCheck p, Cmd.quit] = [] := rfl

theorem hasQuitCmd_final (a b : Int) (p : String) :
    hasQuitCmd [Cmd.setPercent a b, Cmd.printfCheck p, Cmd.quit] = true := by
  simp [hasQuitCmd]

theorem dispatchesOf_mid (a b : Int) (p d : String) :
    dispatchesOf [Cmd.setPercent a b, Cmd.printfCheck p, Cmd.runGitGCCmd d] = [d] := rfl

theorem hasQuitCmd_mid (a b : Int) (p d : String) :
    hasQuitCmd [Cmd.setPercent a b, Cmd.printfCheck p, Cmd.runGitGCCmd d] = false := by
  simp [hasQuitCmd]

/-- A completion event that still leaves work: the counters advance, the
directory at the stored `nextIndex` is (re-)dispatched. -/
theorem Update_completed_mid (m : Model) (pkg : String)
    (h1 : m.nextIndex < (m.directories.length : Int))
    (h2 : ¬ (m.directories.length : Int) ≤ m.index + 1) :
    m.Update (Msg.dirGitGCCompleted pkg) =
      ({ m with
          index := m.index + 1,
          inFlight := m.inFlight - 1 + 1,
          nextIndex := m.nextIndex + 1 },
        [Cmd.setPercent (m.index + 1) (m.directories.length : Int),
          Cmd.printfCheck pkg,
          Cmd.runGitGCCmd (m.directories.getD m.nextIndex.toNat "")]) := by
  simp only [Model.Update]
  rw [if_pos h1]
  dsimp only
  rw [if_neg h2]
  simp

/-- The completion event that makes `index` reach the total while the stored
`nextIndex` is still below it: the dispatch command is built (and the
counters bumped) but the command is dropped from the returned batch, `done`
is set and quit is emitted. -/
theorem Update_completed_final (m : Model) (pkg : String)
    (h1 : m.nextIndex < (m.directories.length : Int))
    (h2 : (m.directories.length : Int) ≤ m.index + 1) :
    m.Update (Msg.dirGitGCCompleted pkg) =
      ({ m with
          index := m.index + 1,
          inFlight := m.inFlight - 1 + 1,
          nextIndex := m.nextIndex + 1,
          done := true },
        [Cmd.setPercent (m.index + 1) (m.directories.length : Int),
          Cmd.printfCheck pkg, Cmd.quit]) := by
  simp only [Model.Update]
  rw [if_pos h1]
  dsimp only
  rw [if_pos h2]

theorem inv_init (dirs : List String) (conc : Int) (s0 : Sys)
    (h : Sys.init? (mkModel dirs conc) = some s0) : SysInv dirs conc s0 := by
  rcases eq_or_ne dirs [] with rfl | hne
  · rw [init?_empty] at h
    injection h with h
    subst h
    exact ⟨rfl, rfl, rfl, rfl, le_refl 0, by simp [mkModel], by simp [mkModel], rfl⟩
  · by_cases hneg : min conc ((dirs.length : Int)) < 0
    · rw [init?_neg dirs conc hne hneg] at h
      exact absurd h (by simp)
    · rw [init?_nonempty dirs conc hne (not_lt.mp hneg)] at h
      injection h with h
      subst h
      have hlen : 0 < dirs.length := List.length_pos.mpr hne
      refine ⟨rfl, rfl, rfl, rfl, le_refl 0, by positivity, ?_, ?_⟩
      · constructor
        · intro hf
          exact absurd hf (by simp [mkModel])
        · intro ⟨h0, _⟩
          have : (0 : Int) = (dirs.length : Int) := h0
          omega
      · simp [mkModel, List.isEmpty_iff, hne]

theorem inv_step (dirs : List String) (conc : Int) (s s' : Sys)
    (hinv : SysInv dirs conc s) (hstep : Sys.Step s s') : SysInv dirs conc s' := by
  obtain ⟨hdirs, hconc, hnx, hifl, hge, hle, hdone, hq⟩ := hinv
  cases hstep with
  | complete dir hmem hqf =>
    have hqf' := hqf
    rw [hq] at hqf'
    obtain ⟨hdf, hef⟩ := Bool.or_eq_false_iff.mp hqf'
    have hne : dirs ≠ [] := by simpa [List.isEmpty_iff] using hef
    have hlenpos : 0 < dirs.length := List.length_pos.mpr hne
    have hidx : s.model.index < (dirs.length : Int) := by
      rcases lt_or_eq_of_le hle with h | h
      · exact h
      · exact absurd (hdone.mpr ⟨h, hlenpos⟩) (by simp [hdf])
    have hnxlt : s.model.nextIndex < (s.model.directories.length : Int) := by
      rw [hnx, hdirs]
      exact hidx
    by_cases hfin : (s.model.directories.length : Int) ≤ s.model.index + 1
    · have heq := Update_completed_final s.model dir hnxlt hfin
      simp only [Sys.applyCompletion, heq]
      rw [hdirs] at hfin
      refine ⟨by simpa using hdirs, by simpa using hconc, by dsimp; omega,
        by dsimp; omega, by dsimp; omega, by dsimp; omega, ?_, ?_⟩
      · constructor
        · intro _
          dsimp
          exact ⟨by omega, hlenpos⟩
        · intro _
          rfl
      · simp [hasQuitCmd_final]
    · have heq := Update_completed_mid s.model dir hnxlt hfin
      simp only [Sys.applyCompletion, heq]
      rw [hdirs] at hfin
      refine ⟨by simpa using hdirs, by simpa using hconc, by dsimp; omega,
        by dsimp; omega, by dsimp; omega, by dsimp; omega, ?_, ?_⟩
      · dsimp
        rw [hdf]
        constructor
        · intro hf
          exact absurd hf (by simp)
        · intro ⟨hcontra, _⟩
          omega
      · simp [hasQuitCmd_mid, hdf, hef, hqf]

theorem inv_reach (dirs : List String) (conc : Int) (s0 s : Sys)
    (h0 : Sys.init? (mkModel dirs conc) = some s0)
    (hr : Sys.Reach s0 s) : SysInv dirs conc s := by
  induction hr with
  | refl => exact inv_init dirs conc s0 h0
  | tail hsteps hstep ih => exact inv_step dirs conc _ _ ih hstep

/-- Any single step from a state satisfying the invariant can only increase
the stored `nextIndex`. -/
theorem step_nextIndex_mono (dirs : List String) (conc : Int) (s s' : Sys)
    (hinv : SysInv dirs conc s) (hstep : Sys.Step s s') :
    s.model.nextIndex ≤ s'.model.nextIndex := by
  obtain ⟨hdirs, hconc, hnx, hifl, hge, hle, hdone, hq⟩ := hinv
  cases hstep with
  | complete dir hmem hqf =>
    have hqf' := hqf
    rw [hq] at hqf'
    obtain ⟨hdf, hef⟩ := Bool.or_eq_false_iff.mp hqf'
    have hne : dirs ≠ [] := by simpa [List.isEmpty_iff] using hef
    have hlenpos : 0 < dirs.length := List.length_pos.mpr hne
    have hidx : s.model.index < (dirs.length : Int) := by
      rcases lt_or_eq_of_le hle with h | h
      · exact h
      · exact absurd (hdone.mpr ⟨h, hlenpos⟩) (by simp [hdf])
    have hnxlt : s.model.nextIndex < (s.model.directories.length : Int) := by
      rw [hnx, hdirs]
      exact hidx
    by_cases hfin : (s.model.directories.length : Int) ≤ s.model.index + 1
    · simp only [Sys.applyCompletion, Update_completed_final s.model dir hnxlt hfin]
      omega
    · simp only [Sys.applyCompletion, Update_completed_mid s.model dir hnxlt hfin]
      omega

/-- No step can leave a state whose event loop has already quit. -/
theorem reach_quitted_fixed (s0 s : Sys) (hq : s0.quitted = true)
    (hr : Sys.Reach s0 s) : s = s0 := by
  induction hr with
  | refl => rfl
  | tail hsteps hstep ih =>
    subst ih
    cases hstep with
    | complete dir hmem hqf =>
      rw [hq] at hqf
      exact Bool.noConfusion hqf

/-- No step can leave a state with no outstanding run: completion events come
only from dispatched processes. -/
theorem reach_no_outstanding_fixed (s0 s : Sys) (ho : s0.outstanding = [])
    (hr : Sys.Reach s0 s) : s = s0 := by
  induction hr with
  | refl => rfl
  | tail hsteps hstep ih =>
    subst ih
    cases hstep with
    | complete dir hmem hqf =>
      rw [ho] at hmem
      exact absurd hmem (List.not_mem_nil dir)

/-- C4: for every run with `total ≥ 0` and `concurrencyLimit ≥ 1`, at every
reachable state of the scheduler before `done`, `inFlight = nextIndex -
completed` and `0 ≤ inFlight ≤ min(concurrencyLimit, total)` hold, and
`nextIndex` never decreases across a transition.  (On the stored model the
bubbletea v1 runtime keeps, `inFlight` is in fact always `0` between events,
which satisfies all three bounds.) -/
theorem C4_scheduler_invariants (dirs : List String) (conc : Int)
    (hc : 1 ≤ conc) (s0 s : Sys)
    (h0 : Sys.init? (mkModel dirs conc) = some s0)
    (hr : Sys.Reach s0 s) (hnd : s.model.done = false) :
    s.model.inFlight = s.model.nextIndex - s.model.index ∧
    0 ≤ s.model.inFlight ∧
    s.model.inFlight ≤ min conc (dirs.length : Int) ∧
    ∀ s' : Sys, Sys.Step s s' → s.model.nextIndex ≤ s'.model.nextIndex := by
  have hinv := inv_reach dirs conc s0 s h0 hr
  obtain ⟨hdirs, hconc, hnx, hifl, hge, hle, hdone, hq⟩ := hinv
  have hlen : (0 : Int) ≤ (dirs.length : Int) := Int.ofNat_nonneg dirs.length
  refine ⟨by omega, by omega, by omega, ?_⟩
  intro s' hstep
  exact step_nextIndex_mono dirs conc s s'
    ⟨hdirs, hconc, hnx, hifl, hge, hle, hdone, hq⟩ hstep

/-- Witness for C4 at `dirs = ["a"]`, `concurrencyLimit = 1`, at the initial
state. -/
def c4start : Sys :=
  { model := mkModel ["a"] 1, outstanding := ["a"], dispatched := ["a"],
    quitted := false }

theorem C4_scheduler_invariants_witness :
    Sys.init? (mkModel ["a"] 1) = some c4start ∧
    c4start.model.done = false ∧
    (c4start.model.inFlight = c4start.model.nextIndex - c4start.model.index ∧
      0 ≤ c4start.model.inFlight ∧
      c4start.model.inFlight ≤ min 1 (((["a"] : List String).length : Int)) ∧
      ∀ s' : Sys, Sys.Step c4start s' → c4start.model.nextIndex ≤ s'.model.nextIndex) :=
  ⟨by decide, rfl,
    C4_scheduler_invariants ["a"] 1 (by decide) c4start c4start (by decide)
      Relation.ReflTransGen.refl rfl⟩

/-- The start state of the run on repositories `a, b` with limit 2. -/
def c3start : Sys :=
  { model := mkModel ["a", "b"] 2, outstanding := ["a", "b"],
    dispatched := ["a", "b"], quitted := false }

/-- C3 (code bug): with repositories `a, b` and limit 2, start-up dispatches
`a` and `b`, but — because the value-receiver `Init`'s counter updates are
discarded by the bubbletea v1 runtime — the completion of `a` re-dispatches
`a` (the item at the stored `nextIndex = 0`).  After one completion event the
aggregate dispatch log is `[a, b, a]`: more than `total = 2` dispatches and
the same item dispatched twice, contradicting the claim (and the code's own
comment "If we still have more directories, spawn another"). -/
theorem C3_init_discard_double_dispatch :
    Sys.init? (mkModel ["a", "b"] 2) = some c3start ∧
    Sys.Step c3start (c3start.applyCompletion "a") ∧
    (c3start.applyCompletion "a").dispatched = ["a", "b", "a"] ∧
    ¬ (c3start.applyCompletion "a").dispatched.Nodup ∧
    2 < (c3start.applyCompletion "a").dispatched.length :=
  ⟨by decide, Sys.Step.complete c3start "a" (by decide) rfl, by decide, by decide,
    by decide⟩

/-- C5 (code bug): with the single repository `a` and limit 1, start-up
dispatches `a`; on `a`'s completion event the stored `nextIndex = 0` is below
`total = 1`, so by the claim a dispatch must occur — but the `Update` code
takes the done branch and drops the freshly built command from the returned
batch (while still bumping `nextIndex`), so nothing is dispatched. -/
theorem C5_final_event_drops_dispatch :
    (mkModel ["a"] 1).Init = some [Cmd.spinnerTick, Cmd.runGitGCCmd "a"] ∧
    (mkModel ["a"] 1).nextIndex < (((["a"] : List String).length : Int)) ∧
    dispatchesOf ((mkModel ["a"] 1).Update (Msg.dirGitGCCompleted "a")).2 = [] ∧
    ((mkModel ["a"] 1).Update (Msg.dirGitGCCompleted "a")).1.nextIndex = 1 ∧
    ((mkModel ["a"] 1).Update (Msg.dirGitGCCompleted "a")).1.done = true := by
  decide

/-- The state the program is in right after start-up on an empty list. -/
def c6start : Sys :=
  { model := mkModel [] 7, outstanding := [], dispatched := [], quitted := true }

/-- C6 counterexample: on the empty list the program quits with zero
dispatches, but it never transitions to `Done`: the `done` flag stays false
(no completion event ever arrives, and `Init` does not set it), the view
still renders the running `0/0` line rather than the done report, and no
further transition exists. -/
theorem C6_empty_counterexample :
    Sys.init? (mkModel [] 7) = some c6start ∧
    c6start.dispatched = [] ∧
    c6start.model.done = false ∧
    c6start.model.View = ViewOut.running 0 0 ∧
    ¬ ∃ s' : Sys, Sys.Step c6start s' := by
  refine ⟨rfl, rfl, rfl, rfl, ?_⟩
  rintro ⟨s', hstep⟩
  cases hstep with
  | complete dir hmem hqf => exact absurd hqf (by decide)

/-- C6 amended: for `total = 0`, start-up immediately emits quit with zero
dispatches, but the scheduler never transitions to `Done`: the run stays in
its initial state forever, with `done = false` and the view reporting the
running `0/0` line, not the 100%-complete done report. -/
theorem C6_empty_amended (conc : Int) (s0 s : Sys)
    (h0 : Sys.init? (mkModel [] conc) = some s0)
    (hr : Sys.Reach s0 s) :
    s0.dispatched = [] ∧ s0.quitted = true ∧ s = s0 ∧
    s.model.done = false ∧ s.model.View = ViewOut.running 0 0 := by
  rw [init?_empty] at h0
  injection h0 with h0
  subst h0
  have hfix := reach_quitted_fixed _ s rfl hr
  subst hfix
  exact ⟨rfl, rfl, rfl, rfl, rfl⟩

theorem C6_empty_amended_witness :
    Sys.init? (mkModel [] 7) = some c6start ∧
    (c6start.dispatched = [] ∧ c6start.quitted = true ∧ c6start = c6start ∧
      c6start.model.done = false ∧ c6start.model.View = ViewOut.running 0 0) :=
  ⟨rfl, C6_empty_amended 7 c6start c6start rfl Relation.ReflTransGen.refl⟩

/-- C10: the `concurrencyLimit ≥ 1` precondition is not enforced: `newModel`
stores any concurrency value unchecked.  With a non-empty list and limit 0,
start-up dispatches nothing, so no completion event can ever arrive and the
run never reaches `Done`; with a negative limit, `Init` fails outright
(Go's `make([]tea.Cmd, toSpawn)` with a negative length). -/
theorem C10_concurrency_unchecked (dirs : List String) (hne : dirs ≠ [])
    (conc : Int) (hneg : conc < 0) :
    (mkModel dirs 0).concurrency = 0 ∧
    Sys.init? (mkModel dirs 0) =
      some { model := mkModel dirs 0
             outstanding := []
             dispatched := []
             quitted := false } ∧
    (∀ s : Sys,
      Sys.Reach { model := mkModel dirs 0
                  outstanding := []
                  dispatched := []
                  quitted := false } s →
      s.dispatched = [] ∧ s.model.done = false) ∧
    Sys.init? (mkModel dirs conc) = none := by
  have hlen : (0 : Int) ≤ (dirs.length : Int) := Int.ofNat_nonneg dirs.length
  have hmin0 : min (0 : Int) (dirs.length : Int) = 0 := by omega
  refine ⟨rfl, ?_, ?_, ?_⟩
  · rw [init?_nonempty dirs 0 hne (by omega)]
    rw [hmin0]
    simp
  · intro s hr
    have hfix := reach_no_outstanding_fixed _ s rfl hr
    subst hfix
    exact ⟨rfl, rfl⟩
  · exact init?_neg dirs conc hne (by omega)

theorem C10_concurrency_unchecked_witness :
    (mkModel ["a"] 0).concurrency = 0 ∧
    Sys.init? (mkModel ["a"] 0) =
      some { model := mkModel ["a"] 0
             outstanding := []
             dispatched := []
             quitted := false } ∧
    Sys.init? (mkModel ["a"] (-1)) = none :=
  ⟨(C10_concurrency_unchecked ["a"] (by decide) (-1) (by decide)).1,
    (C10_concurrency_unchecked ["a"] (by decide) (-1) (by decide)).2.1,
    (C10_concurrency_unchecked ["a"] (by decide) (-1) (by decide)).2.2.2⟩

/-- C1 counterexample: a failing `git gc` on `a` (non-zero exit or failure to
start) makes the runner return the `tea.Quit` command function as the
message, not a failure completion event.  Feeding that message to `Update`
leaves the completed count at 0 and dispatches nothing — the failure is
neither counted toward `completed` nor followed by further dispatch. -/
theorem C1_failure_counterexample :
    runGitGC "a" true = Msg.teaQuitFn ∧
    Msg.teaQuitFn ≠ Msg.dirGitGCCompleted "a" ∧
    ((mkModel ["a", "b"] 2).Update Msg.teaQuitFn).1.index = 0 ∧
    dispatchesOf ((mkModel ["a", "b"] 2).Update Msg.teaQuitFn).2 = [] := by
  decide

/-- C1 amended: for every work item whose external operation fails, the
runner produces the `tea.Quit` command value in place of a completion event;
the scheduler's `Update` matches no case on that message, so the failed item
is never counted toward `completed`, and no replacement dispatch occurs.
Only a successful run yields a `dirGitGCCompleted` completion event. -/
theorem C1_runner_failure_amended (dir : String) (m : Model) :
    runGitGC dir true = Msg.teaQuitFn ∧
    runGitGC dir false = Msg.dirGitGCCompleted dir ∧
    m.Update Msg.teaQuitFn = (m, []) :=
  ⟨rfl, rfl, rfl⟩

/-! ### Enumeration -/

mutual

/-- Membership in the list a successful walk collects: exactly the
qualifying directories (name not hidden, a `.git` entry of any kind),
wherever they sit in the tree — including below hidden directories. -/
theorem mem_walkCollect (n : FSNode) (path p : String) (l : List String)
    (h : walkCollect path n = Except.ok l) : p ∈ l ↔ ReposAt path n p := by
  cases n with
  | file nm =>
    simp only [walkCollect] at h
    injection h with h
    subst h
    constructor
    · intro hp
      exact absurd hp (List.not_mem_nil p)
    · intro hp
      cases hp
  | dir nm rd ch =>
    cases rd with
    | false =>
      rw [show walkCollect path (FSNode.dir nm false ch) =
        Except.error (path ++ ": permission denied") from rfl] at h
      exact absurd h (by simp)
    | true =>
      rw [show walkCollect path (FSNode.dir nm true ch) =
        (match walkChildren path ch with
          | Except.ok rest =>
            Except.ok ((if !isHiddenName nm && hasGitEntry ch then [path] else []) ++ rest)
          | Except.error e => Except.error e) from rfl] at h
      cases hw : walkChildren path ch with
      | error e =>
        rw [hw] at h
        exact absurd h (by simp)
      | ok rest =>
        rw [hw] at h
        dsimp only at h
        injection h with h
        subst h
        rw [List.mem_append]
        constructor
        · rintro (hin | hin)
          · by_cases hc : (!isHiddenName nm && hasGitEntry ch) = true
            · rw [if_pos hc] at hin
              have hp : p = path := by simpa using hin
              subst hp
              obtain ⟨hnm, hgit⟩ :
                  isHiddenName nm = false ∧ hasGitEntry ch = true := by
                simpa [Bool.and_eq_true, Bool.not_eq_true'] using hc
              exact ReposAt.here p nm true ch hnm hgit
            · rw [if_neg hc] at hin
              exact absurd hin (List.not_mem_nil p)
          · obtain ⟨c, hcmem, hcr⟩ := (mem_walkChildren ch path p rest hw).mp hin
            exact ReposAt.inside path nm true ch c p hcmem hcr
        · intro hr
          cases hr with
          | here _ _ =>
            rename_i hname hgit
            left
            rw [if_pos (by simp [hname, hgit, Bool.not_eq_true'])]
            simp
          | inside _ _ _ =>
            rename_i c hcmem hcr
            right
            exact (mem_walkChildren ch path p rest hw).mpr ⟨c, hcmem, hcr⟩

/-- Membership in the list a successful child walk collects. -/
theorem mem_walkChildren (cs : List FSNode) (path p : String) (l : List String)
    (h : walkChildren path cs = Except.ok l) :
    p ∈ l ↔ ∃ c ∈ cs, ReposAt (path ++ "/" ++ c.name) c p := by
  cases cs with
  | nil =>
    simp only [walkChildren] at h
    injection h with h
    subst h
    simp
  | cons c cs =>
    rw [show walkChildren path (c :: cs) =
      (match walkCollect (path ++ "/" ++ c.name) c with
        | Except.ok l1 =>
          (match walkChildren path cs with
            | Except.ok ls => Except.ok (l1 ++ ls)
            | Except.error e => Except.error e)
        | Except.error e => Except.error e) from rfl] at h
    cases hw1 : walkCollect (path ++ "/" ++ c.name) c with
    | error e =>
      rw [hw1] at h
      exact absurd h (by simp)
    | ok l1 =>
      rw [hw1] at h
      dsimp only at h
      cases hw2 : walkChildren path cs with
      | error e =>
        rw [hw2] at h
        exact absurd h (by simp)
      | ok ls =>
        rw [hw2] at h
        dsimp only at h
        injection h with h
        subst h
        rw [List.mem_append]
        constructor
        · rintro (hin | hin)
          · exact ⟨c, List.mem_cons_self c cs,
              (mem_walkCollect c (path ++ "/" ++ c.name) p l1 hw1).mp hin⟩
          · obtain ⟨c2, hc2, hr2⟩ := (mem_walkChildren cs path p ls hw2).mp hin
            exact ⟨c2, List.mem_cons_of_mem c hc2, hr2⟩
        · rintro ⟨c2, hc2, hr2⟩
          rcases List.mem_cons.mp hc2 with rfl | hc2m
          · left
            exact (mem_walkCollect c2 (path ++ "/" ++ c2.name) p l1 hw1).mpr hr2
          · right
            exact (mem_walkChildren cs path p ls hw2).mpr ⟨c2, hc2m, hr2⟩

end

/-- A successful enumeration on a directory root is the sorted, deduplicated
walk result. -/
theorem findDirectories_dir_ok (nm : String) (rd : Bool) (ch : List FSNode)
    (rp : String) (σ : List String → List String) (w : List String)
    (hw : walkCollect rp (FSNode.dir nm rd ch) = Except.ok w) :
    findDirectories (some (FSNode.dir nm rd ch)) rp σ =
      Except.ok (List.insertionSort StrLe (σ w.dedup)) := by
  simp [findDirectories, FSNode.isDir, hw]

/-- C8 counterexample: a directory `wt` whose `.git` entry is a plain FILE
(as in a git worktree or submodule link) is nevertheless enumerated, because
the code only checks `os.Stat(path/.git)` for success and never checks that
the entry is a directory — contradicting the claim's "a `.git` entry that is
a directory". -/
theorem C8_gitfile_counterexample :
    findDirectories
        (some (FSNode.dir "root" true [FSNode.dir "wt" true [FSNode.file ".git"]]))
        "/r" id = Except.ok ["/r/wt"] ∧
    (FSNode.file ".git").isDir = false := by
  decide

/-- C8 amended: a visited directory is included in the enumerated list if and
only if its name does not begin with the hidden marker and it directly
contains an entry named `.git` of ANY kind — file or directory (`ReposAt`
captures exactly that qualification). -/
theorem C8_membership_amended (root : FSNode) (rp : String)
    (σ : List String → List String) (hσ : ∀ xs : List String, List.Perm (σ xs) xs)
    (l : List String) (p : String)
    (hok : findDirectories (some root) rp σ = Except.ok l) :
    p ∈ l ↔ ReposAt rp root p := by
  cases root with
  | file nm => exact absurd hok (by simp [findDirectories, FSNode.isDir])
  | dir nm rd ch =>
    cases hw : walkCollect rp (FSNode.dir nm rd ch) with
    | error e =>
      rw [show findDirectories (some (FSNode.dir nm rd ch)) rp σ = Except.error e from by
        simp [findDirectories, FSNode.isDir, hw]] at hok
      exact absurd hok (by simp)
    | ok w =>
      rw [findDirectories_dir_ok nm rd ch rp σ w hw] at hok
      injection hok with hok
      subst hok
      rw [List.mem_insertionSort, (hσ _).mem_iff, List.mem_dedup]
      exact mem_walkCollect _ rp p w hw

theorem C8_membership_amended_witness :
    ("/r/wt" ∈ (["/r/wt"] : List String) ↔
      ReposAt "/r" (FSNode.dir "root" true [FSNode.dir "wt" true [FSNode.file ".git"]])
        "/r/wt") ∧
    ReposAt "/r" (FSNode.dir "root" true [FSNode.dir "wt" true [FSNode.file ".git"]])
      "/r/wt" :=
  have hiff :=
    C8_membership_amended
      (FSNode.dir "root" true [FSNode.dir "wt" true [FSNode.file ".git"]]) "/r" id
      (fun xs => List.Perm.refl xs) ["/r/wt"] "/r/wt" (by decide)
  ⟨hiff, hiff.mp (by decide)⟩

/-- C2 counterexample: a repository nested inside the hidden directory
`.hidden` DOES appear in the enumerated list — the walk is not pruned at
hidden directories (the code never returns `filepath.SkipDir`), it merely
excludes the hidden directory itself from the results. -/
theorem C2_hidden_counterexample :
    findDirectories
        (some (FSNode.dir "root" true
          [FSNode.dir ".hidden" true [FSNode.dir "repo" true [FSNode.dir ".git" true []]]]))
        "/r" id = Except.ok ["/r/.hidden/repo"] := by
  decide

/-- C2 amended: hidden directories are excluded from the results themselves
(every listed path is a qualifying, non-hidden-named repository directory),
but traversal is NOT pruned at them: their contents are visited, and a
non-hidden repository nested under a hidden directory appears in the
enumerated list. -/
theorem C2_hidden_not_pruned_amended (rp hn rn : String)
    (hh : isHiddenName hn = true) (hhg : hn ≠ ".git")
    (hrn : isHiddenName rn = false) :
    ∃ l : List String,
      findDirectories
        (some (FSNode.dir "root" true
          [FSNode.dir hn true [FSNode.dir rn true [FSNode.dir ".git" true []]]]))
        rp id = Except.ok l ∧
      (rp ++ "/" ++ hn ++ "/" ++ rn) ∈ l ∧
      ∀ q ∈ l,
        ReposAt rp
          (FSNode.dir "root" true
            [FSNode.dir hn true [FSNode.dir rn true [FSNode.dir ".git" true []]]]) q := by
  obtain ⟨w, hw⟩ :
      ∃ w, walkCollect rp
        (FSNode.dir "root" true
          [FSNode.dir hn true [FSNode.dir rn true [FSNode.dir ".git" true []]]]) =
        Except.ok w := ⟨_, rfl⟩
  have hok := findDirectories_dir_ok "root" true
    [FSNode.dir hn true [FSNode.dir rn true [FSNode.dir ".git" true []]]] rp id w hw
  have hmem : ∀ q : String,
      q ∈ List.insertionSort StrLe (id w.dedup) ↔
        ReposAt rp
          (FSNode.dir "root" true
            [FSNode.dir hn true [FSNode.dir rn true [FSNode.dir ".git" true []]]]) q := by
    intro q
    rw [List.mem_insertionSort, id_eq, List.mem_dedup]
    exact mem_walkCollect _ rp q w hw
  refine ⟨List.insertionSort StrLe (id w.dedup), hok, ?_, fun q hq => (hmem q).mp hq⟩
  refine (hmem _).mpr ?_
  refine ReposAt.inside rp "root" true _ (FSNode.dir hn true [FSNode.dir rn true [FSNode.dir ".git" true []]])
    _ (by simp) ?_
  refine ReposAt.inside (rp ++ "/" ++ hn) hn true _ (FSNode.dir rn true [FSNode.dir ".git" true []])
    _ (by simp) ?_
  exact ReposAt.here (rp ++ "/" ++ hn ++ "/" ++ rn) rn true [FSNode.dir ".git" true []]
    hrn (by decide)

theorem C2_hidden_not_pruned_amended_witness :
    ∃ l : List String,
      findDirectories
        (some (FSNode.dir "root" true
          [FSNode.dir ".h" true [FSNode.dir "repo" true [FSNode.dir ".git" true []]]]))
        "/r" id = Except.ok l ∧
      ("/r" ++ "/" ++ ".h" ++ "/" ++ "repo") ∈ l ∧
      ∀ q ∈ l,
        ReposAt "/r"
          (FSNode.dir "root" true
            [FSNode.dir ".h" true [FSNode.dir "repo" true [FSNode.dir ".git" true []]]]) q :=
  C2_hidden_not_pruned_amended "/r" ".h" "repo" (by decide) (by decide) (by decide)

/-- C7: a successful enumeration is sorted by path and duplicate-free, and it
does not depend on the hash set's iteration order: with the tree unchanged, a
second run (under any other `Values()` order) returns the identical list. -/
theorem C7_enumeration_deterministic (root : Option FSNode) (rp : String)
    (σ₁ σ₂ : List String → List String)
    (hσ₁ : ∀ xs : List String, List.Perm (σ₁ xs) xs)
    (hσ₂ : ∀ xs : List String, List.Perm (σ₂ xs) xs)
    (l : List String)
    (hok : findDirectories root rp σ₁ = Except.ok l) :
    l.Sorted StrLe ∧ l.Nodup ∧ findDirectories root rp σ₂ = Except.ok l := by
  cases root with
  | none => exact absurd hok (by simp [findDirectories])
  | some f =>
    cases f with
    | file nm => exact absurd hok (by simp [findDirectories, FSNode.isDir])
    | dir nm rd ch =>
      cases hw : walkCollect rp (FSNode.dir nm rd ch) with
      | error e =>
        rw [show findDirectories (some (FSNode.dir nm rd ch)) rp σ₁ = Except.error e from by
          simp [findDirectories, FSNode.isDir, hw]] at hok
        exact absurd hok (by simp)
      | ok w =>
        rw [findDirectories_dir_ok nm rd ch rp σ₁ w hw] at hok
        injection hok with hok
        subst hok
        have hs₁ : (List.insertionSort StrLe (σ₁ w.dedup)).Sorted StrLe :=
          List.sorted_insertionSort StrLe (σ₁ w.dedup)
        have hs₂ : (List.insertionSort StrLe (σ₂ w.dedup)).Sorted StrLe :=
          List.sorted_insertionSort StrLe (σ₂ w.dedup)
        have hnd : (List.insertionSort StrLe (σ₁ w.dedup)).Nodup :=
          ((List.perm_insertionSort StrLe (σ₁ w.dedup)).trans (hσ₁ _)).nodup_iff.mpr
            (List.nodup_dedup w)
        have hperm : List.Perm (List.insertionSort StrLe (σ₂ w.dedup))
            (List.insertionSort StrLe (σ₁ w.dedup)) :=
          (List.perm_insertionSort StrLe (σ₂ w.dedup)).trans
            ((hσ₂ _).trans (((hσ₁ _).symm).trans
              (List.perm_insertionSort StrLe (σ₁ w.dedup)).symm))
        refine ⟨hs₁, hnd, ?_⟩
        rw [findDirectories_dir_ok nm rd ch rp σ₂ w hw]
        exact congrArg Except.ok (List.eq_of_perm_of_sorted hperm hs₂ hs₁)

/-- The two-repository tree used to witness C7, with children listed out of
sorted order so the final sort is exercised. -/
def c7tree : FSNode :=
  FSNode.dir "root" true
    [FSNode.dir "b" true [FSNode.dir ".git" true []],
      FSNode.dir "a" true [FSNode.dir ".git" true []]]

theorem C7_enumeration_deterministic_witness :
    (["/r/a", "/r/b"] : List String).Sorted StrLe ∧
    (["/r/a", "/r/b"] : List String).Nodup ∧
    findDirectories (some c7tree) "/r" id = Except.ok ["/r/a", "/r/b"] :=
  C7_enumeration_deterministic (some c7tree) "/r" id id
    (fun xs => List.Perm.refl xs) (fun xs => List.Perm.refl xs)
    ["/r/a", "/r/b"] (by decide)

/-- C9: whenever the enumeration fails — the root path does not exist, the
root is not a directory, or the walk fails (for example a permission error on
any subtree) — `main` prints the error and exits with status 1 before any
scheduling: no work item is ever dispatched. -/
theorem C9_discovery_fatal (root : Option FSNode) (rp : String)
    (σ : List String → List String) (conc : Int)
    (hbad : root = none ∨ (∃ nm, root = some (FSNode.file nm)) ∨
      (∃ nm ch, root = some (FSNode.dir nm false ch)) ∨
      (∃ f e, root = some f ∧ walkCollect rp f = Except.error e)) :
    ∃ e, findDirectories root rp σ = Except.error e ∧
      mainRun root rp σ conc = MainRes.fatal e ∧
      (mainRun root rp σ conc).exitCode = some 1 ∧
      (mainRun root rp σ conc).dispatched = [] := by
  have hfd : ∃ e, findDirectories root rp σ = Except.error e := by
    rcases hbad with rfl | ⟨nm, rfl⟩ | ⟨nm, ch, rfl⟩ | ⟨f, e, rfl, hwerr⟩
    · exact ⟨"stat " ++ rp ++ ": no such file or directory", rfl⟩
    · exact ⟨"root dir '" ++ rp ++ "' is not a directory", rfl⟩
    · exact ⟨rp ++ ": permission denied", by
        simp [findDirectories, FSNode.isDir,
          show walkCollect rp (FSNode.dir nm false ch) =
            Except.error (rp ++ ": permission denied") from rfl]⟩
    · cases f with
      | file nm => exact ⟨"root dir '" ++ rp ++ "' is not a directory", rfl⟩
      | dir nm rd ch =>
        exact ⟨e, by simp [findDirectories, FSNode.isDir, hwerr]⟩
  obtain ⟨e, he⟩ := hfd
  refine ⟨e, he, ?_, ?_, ?_⟩ <;>
    simp [mainRun, newModel, he, MainRes.exitCode, MainRes.dispatched]

theorem C9_discovery_fatal_witness :
    ∃ e, findDirectories none "/missing" id = Except.error e ∧
      mainRun none "/missing" id 4 = MainRes.fatal e ∧
      (mainRun none "/missing" id 4).exitCode = some 1 ∧
      (mainRun none "/missing" id 4).dispatched = [] :=
  C9_discovery_fatal none "/missing" id 4 (Or.inl rfl)

end GitGC
